import Mathlib

/-!
Verification of the nsqtop monitoring tool (`src/nsq_top.py`): a shallow
embedding of its aggregation, rate, sparkline, endpoint-resolution and
main-loop logic, with theorems settling the specification's claims.

Machine integers from the JSON documents are modelled as `Int`; message
rates (Python float division of integers) are modelled as `Rat`; Python
dicts that the program builds by first-sight insertion are modelled as
association lists in insertion order (keys unique by construction), which
also captures the dict's iteration order used for sorting.
-/

/-- A channel entry inside one broker's `/stats` document
(`topic.channels[i]` in `nsq_top.py`).  `message_count` is read with
`channel.get('message_count', 0)`; we model it as a plain integer field. -/
structure NsqChannel where
  channel_name : String
  depth : Int
  backend_depth : Int
  in_flight_count : Int
  message_count : Int
deriving DecidableEq

/-- A topic entry inside one broker's `/stats` document. -/
structure NsqTopic where
  topic_name : String
  channels : List NsqChannel
deriving DecidableEq

/-- One broker's `/stats` document (the `data` payload). -/
structure NsqdStats where
  topics : List NsqTopic
deriving DecidableEq

/-- The per-channel aggregate record built by `process_stats`:
the value stored under a `"topic/channel"` key of `channel_data`. -/
structure ChannelData where
  topic : String
  channel : String
  depth : Int
  in_flight_count : Int
  message_count : Int
  rate_per_second : Rat
  rate_per_minute : Rat
deriving DecidableEq

/-- The dict key `f"{topic['topic_name']}/{channel['channel_name']}"`. -/
def channelKey (t : NsqTopic) (c : NsqChannel) : String :=
  t.topic_name ++ "/" ++ c.channel_name

/-- Python dict lookup on our insertion-ordered association list. -/
def alookup (k : String) : List (String × ChannelData) → Option ChannelData
  | [] => none
  | (k', d) :: rest => if k' = k then some d else alookup k rest

/-- Python dict in-place update of an existing key. -/
def aupdate (k : String) (f : ChannelData → ChannelData) :
    List (String × ChannelData) → List (String × ChannelData)
  | [] => []
  | (k', d) :: rest =>
      if k' = k then (k', f d) :: rest else (k', d) :: aupdate k f rest

/-- The record created on first sight of a channel key
(`nsq_top.py` lines 83-89): depth and in-flight start at 0, but
`message_count` starts at the broker's counter (`channel.get('message_count', 0)`).
Rate fields only appear later in the Python dict; we carry them as 0. -/
def initRecord (t : NsqTopic) (c : NsqChannel) : ChannelData :=
  { topic := t.topic_name
    channel := c.channel_name
    depth := 0
    in_flight_count := 0
    message_count := c.message_count
    rate_per_second := 0
    rate_per_minute := 0 }

/-- The accumulation step (`nsq_top.py` lines 92-94). -/
def accumChannel (c : NsqChannel) (d : ChannelData) : ChannelData :=
  { d with
    depth := d.depth + c.depth + c.backend_depth
    in_flight_count := d.in_flight_count + c.in_flight_count
    message_count := d.message_count + c.message_count }

/-- Processing one `(topic, channel)` occurrence against `channel_data`:
insert the initial record if the key is unseen, then accumulate. -/
def addChannel (t : NsqTopic) (c : NsqChannel)
    (m : List (String × ChannelData)) : List (String × ChannelData) :=
  let key := channelKey t c
  let m' := if (alookup key m).isSome then m else m ++ [(key, initRecord t c)]
  aupdate key (accumChannel c) m'

/-- All `(topic, channel)` occurrences of a stats list, in the order the
triple-nested loop of `process_stats` visits them. -/
def channelTriples (nsqd_stats : List NsqdStats) : List (NsqTopic × NsqChannel) :=
  nsqd_stats.flatMap fun s => s.topics.flatMap fun t => t.channels.map fun c => (t, c)

/-- One iteration of the aggregation loop body: update `channel_data`
and add the channel's in-flight count to `total_in_flight`. -/
def aggStep (st : List (String × ChannelData) × Int)
    (tc : NsqTopic × NsqChannel) : List (String × ChannelData) × Int :=
  (addChannel tc.1 tc.2 st.1, st.2 + tc.2.in_flight_count)

/-- The aggregation loop of `process_stats` (lines 75-95): fold over all
channel occurrences starting from an empty dict and zero total. -/
def aggregate (nsqd_stats : List NsqdStats) :
    List (String × ChannelData) × Int :=
  (channelTriples nsqd_stats).foldl aggStep ([], 0)

/-- `channel_data` after the aggregation loop. -/
def buildChannelData (nsqd_stats : List NsqdStats) : List (String × ChannelData) :=
  (aggregate nsqd_stats).1

/-- `total_in_flight` after the aggregation loop. -/
def totalInFlight (nsqd_stats : List NsqdStats) : Int :=
  (aggregate nsqd_stats).2

/-- The per-channel rate of lines 100-103: previous count defaults to the
current count when the key is missing from `previous_stats`, the delta is
clamped at zero, and the result is divided by the interval. -/
def rateFor (prev : List (String × ChannelData)) (k : String) (d : ChannelData)
    (interval_seconds : Rat) : Rat :=
  let current_count := d.message_count
  let previous_count :=
    match alookup k prev with
    | some pd => pd.message_count
    | none => current_count
  ((max 0 (current_count - previous_count) : Int) : Rat) / interval_seconds

/-- The rate section of `process_stats` (lines 98-110).  Python's
`if previous_stats:` is falsy both for `None` and for an empty dict, so
both take the zero-rate branch. -/
def annotateRates (previous_stats : Option (List (String × ChannelData)))
    (interval_seconds : Rat) (m : List (String × ChannelData)) :
    List (String × ChannelData) :=
  match previous_stats with
  | some p =>
      if p.isEmpty then
        m.map fun kd => (kd.1, { kd.2 with rate_per_second := 0, rate_per_minute := 0 })
      else
        m.map fun kd =>
          let mps := rateFor p kd.1 kd.2 interval_seconds
          (kd.1, { kd.2 with rate_per_second := mps, rate_per_minute := mps * 60 })
  | none =>
      m.map fun kd => (kd.1, { kd.2 with rate_per_second := 0, rate_per_minute := 0 })

/-- Stable insertion of a record into a depth-descending list: skip the
prefix of strictly deeper records, then place the new record before every
record of equal or smaller depth.  This is the unique stable sort order of
Python's `sorted(..., key=lambda x: x['depth'], reverse=True)`. -/
def insertDesc (x : ChannelData) : List ChannelData → List ChannelData
  | [] => [x]
  | y :: ys => if x.depth < y.depth then y :: insertDesc x ys else x :: y :: ys

/-- Stable sort by depth descending (`nsq_top.py` line 113). -/
def sortByDepthDesc : List ChannelData → List ChannelData
  | [] => []
  | x :: xs => insertDesc x (sortByDepthDesc xs)

/-- `process_stats`: aggregate, attach rates, and return the
depth-descending channel list together with the in-flight total. -/
def process_stats (nsqd_stats : List NsqdStats)
    (previous_stats : Option (List (String × ChannelData)))
    (interval_seconds : Rat) : List ChannelData × Int :=
  let agg := aggregate nsqd_stats
  let channel_data := annotateRates previous_stats interval_seconds agg.1
  (sortByDepthDesc (channel_data.map Prod.snd), agg.2)

/-- The sparkline palette `SPARKLINE_CHARS = " ▂▃▄▅▆▇█"` (8 glyphs,
lowest intensity first). -/
def SPARKLINE_CHARS : List Char :=
  [' ', '▂', '▃', '▄', '▅', '▆', '▇', '█']

/-- `SPARKLINE_LENGTH = 60`: the fixed bound of the in-flight history. -/
def SPARKLINE_LENGTH : Nat := 60

/-- Python `max(history)` over a list of naturals. -/
def maxOf (history : List Nat) : Nat :=
  history.foldl Nat.max 0

/-- The scaling of line 125, `int((value / max_val) * (len(SPARKLINE_CHARS) - 1))`,
which for non-negative integers is the floor `value * 7 / max_val`. -/
def scaleValue (max_val : Nat) (value : Nat) : Nat :=
  value * (SPARKLINE_CHARS.length - 1) / max_val

/-- `get_sparkline` (lines 116-126), over non-negative history values:
empty history gives the empty glyph list; otherwise `max_val` is the
window maximum, replaced by 1 when the maximum is not positive, and each
value maps to the glyph at its scaled index. -/
def get_sparkline (history : List Nat) : List Char :=
  if history.isEmpty then []
  else
    let max_val := if 0 < maxOf history then maxOf history else 1
    history.map fun value => SPARKLINE_CHARS.getD (scaleValue max_val value) ' '

/-- The history update of lines 305-307: append the cycle's total, then
`pop(0)` once if the length exceeds `SPARKLINE_LENGTH`. -/
def updateHistory (history : List Int) (total_in_flight : Int) : List Int :=
  let appended := history ++ [total_in_flight]
  if SPARKLINE_LENGTH < appended.length then appended.tail else appended

/-- An nsqd producer entry from a `/nodes` response, keyed for
deduplication by broadcast address and HTTP port. -/
structure Producer where
  broadcast_address : String
  http_port : Int
deriving DecidableEq

/-- The `all_producers` accumulator of `get_nsqd_nodes`: concatenation of
the producer lists of the addresses that responded. -/
def allProducers (results : List (Except String (List Producer))) : List Producer :=
  results.foldl
    (fun acc r => match r with | .ok ps => acc ++ ps | .error _ => acc) []

/-- The `errors` accumulator of `get_nsqd_nodes`: the per-address error
messages in address order. -/
def errorsOf (results : List (Except String (List Producer))) : List String :=
  results.foldl
    (fun acc r => match r with | .ok _ => acc | .error e => acc ++ [e]) []

/-- The deduplication pass of lines 42-48: keep the first occurrence of
each `(broadcast_address, http_port)` key. -/
def dedupeProducers : List Producer → List (String × Int) → List Producer
  | [], _ => []
  | p :: ps, seen =>
      let key := (p.broadcast_address, p.http_port)
      if key ∈ seen then dedupeProducers ps seen
      else p :: dedupeProducers ps (key :: seen)

/-- `get_nsqd_nodes` (lines 20-50), with each address's fetch outcome
given as input: an error message when the request or JSON parse failed,
or the list of producers it returned.  The function errors exactly when
`all_producers` is empty and `errors` is non-empty, joining the messages
with `"; "`; otherwise it returns the deduplicated producers. -/
def get_nsqd_nodes (results : List (Except String (List Producer))) :
    Except String (List Producer) :=
  let all_producers := allProducers results
  let errors := errorsOf results
  if all_producers.isEmpty ∧ ¬ errors.isEmpty then
    .error (String.intercalate "; " errors)
  else
    .ok (dedupeProducers all_producers [])

/-- The mutable state of the main loop (lines 282-283):
`previous_channel_stats` starts as `None`, `inflight_history` empty. -/
structure LoopState where
  previous_channel_stats : Option (List (String × ChannelData))
  inflight_history : List Int
deriving DecidableEq

/-- What one loop iteration displays. -/
structure CycleOutput where
  error_message : Option String
  channels : List ChannelData
  total_in_flight : Int
deriving DecidableEq

/-- The dict comprehension of line 302 rebuilding `previous_channel_stats`
from the cycle's sorted channel list. -/
def statsByKey (channels : List ChannelData) : List (String × ChannelData) :=
  channels.map fun ch => (ch.topic ++ "/" ++ ch.channel, ch)

/-- One iteration of the main loop (lines 289-309), with the cycle's
resolution-and-fetch outcome as input: on a resolution failure the error
is shown, `channels` stays empty, `total_in_flight` stays 0 and
`previous_channel_stats` is left untouched; on success `process_stats`
runs against the stored previous mapping, which is then replaced.  Either
way the cycle's total is appended to the history. -/
def loopStep (interval : Rat) (st : LoopState)
    (cycle : Except String (List NsqdStats)) : LoopState × CycleOutput :=
  match cycle with
  | .error e =>
      ({ st with inflight_history := updateHistory st.inflight_history 0 },
       { error_message := some e, channels := [], total_in_flight := 0 })
  | .ok nsqd_stats =>
      let res := process_stats nsqd_stats st.previous_channel_stats interval
      ({ previous_channel_stats := some (statsByKey res.1)
         inflight_history := updateHistory st.inflight_history res.2 },
       { error_message := none, channels := res.1, total_in_flight := res.2 })

/-- Running the main loop over a list of cycle outcomes from the initial
state, collecting each cycle's output. -/
def runLoop (interval : Rat) (st : LoopState)
    (cycles : List (Except String (List NsqdStats))) :
    LoopState × List CycleOutput :=
  match cycles with
  | [] => (st, [])
  | c :: cs =>
      let step := loopStep interval st c
      let rest := runLoop interval step.1 cs
      (rest.1, step.2 :: rest.2)

/-- A single-broker stats document hosting topic `t`, channel `c`, with
the given field values; a test fixture. -/
def brokerDoc (depth backend_depth in_flight message_count : Int) : NsqdStats :=
  ⟨[⟨"t", [⟨"c", depth, backend_depth, in_flight, message_count⟩]⟩]⟩

/-- Sum of `depth + backend_depth` over the channel occurrences carrying
a given key: what the spec calls the channel's depth contribution of its
brokers. -/
def depthContrib (ts : List (NsqTopic × NsqChannel)) (k : String) : Int :=
  ((ts.filter fun tc => decide (channelKey tc.1 tc.2 = k)).map
    fun tc => tc.2.depth + tc.2.backend_depth).sum

/-- The `channel_data`-building fold in isolation (the first component of
`aggStep`'s fold). -/
def buildMap (ts : List (NsqTopic × NsqChannel)) : List (String × ChannelData) :=
  ts.foldl (fun m tc => addChannel tc.1 tc.2 m) []

/-- C1: the claim says the first-sight record starts `messageCount` at
zero, so a channel hosted by exactly one broker ends with that broker's
counter.  The code instead starts the record at the broker's counter and
then adds it again: a single broker reporting `message_count = 5` yields
an aggregated `message_count` of 10, not 5. -/
theorem C1_single_broker_message_count_doubled :
    (alookup "t/c" (buildChannelData [brokerDoc 3 4 2 5])).map ChannelData.message_count
        = some 10
    ∧ ¬ ((10 : Int) = 5) := by decide

/-- C2: aggregation is claimed to be order-independent, but the
first-seen broker's `message_count` is double-counted, so permuting two
brokers that host the same channel with different counters changes the
aggregated `message_count` (4 versus 5 here). -/
theorem C2_aggregation_order_dependent :
    List.Perm [brokerDoc 0 0 0 1, brokerDoc 0 0 0 2] [brokerDoc 0 0 0 2, brokerDoc 0 0 0 1]
    ∧ (alookup "t/c" (buildChannelData [brokerDoc 0 0 0 1, brokerDoc 0 0 0 2])).map
        ChannelData.message_count = some 4
    ∧ (alookup "t/c" (buildChannelData [brokerDoc 0 0 0 2, brokerDoc 0 0 0 1])).map
        ChannelData.message_count = some 5
    ∧ buildChannelData [brokerDoc 0 0 0 1, brokerDoc 0 0 0 2]
        ≠ buildChannelData [brokerDoc 0 0 0 2, brokerDoc 0 0 0 1] := by decide

/-- C3: rate computation.  With no previous mapping every channel's rates
are zero; a key absent from the previous mapping defaults its previous
count to the current count, giving rate zero; a present key gives
`max 0 (current - previous) / interval` (so non-positive deltas clamp to
zero) with the per-minute rate sixty times the per-second rate; and the
spec's example (previous 100, current 130, elapsed 2s) gives 15 and 900. -/
theorem C3_rate_annotation_correct (m p : List (String × ChannelData)) (k : String)
    (d pd : ChannelData) (interval : Rat) (_hpos : 0 < interval) :
    (∀ kd ∈ annotateRates none interval m,
        kd.2.rate_per_second = 0 ∧ kd.2.rate_per_minute = 0)
    ∧ (alookup k p = none → rateFor p k d interval = 0)
    ∧ (alookup k p = some pd → rateFor p k d interval =
        ((max 0 (d.message_count - pd.message_count) : Int) : Rat) / interval)
    ∧ (alookup k p = some pd → d.message_count ≤ pd.message_count →
        rateFor p k d interval = 0)
    ∧ (¬ p = [] → ∀ kd ∈ m,
        (kd.1, { kd.2 with
                  rate_per_second := rateFor p kd.1 kd.2 interval,
                  rate_per_minute := rateFor p kd.1 kd.2 interval * 60 })
          ∈ annotateRates (some p) interval m)
    ∧ rateFor [("t/c", ⟨"t", "c", 0, 0, 100, 0, 0⟩)] "t/c" ⟨"t", "c", 0, 0, 130, 0, 0⟩ 2 = 15
    ∧ rateFor [("t/c", ⟨"t", "c", 0, 0, 100, 0, 0⟩)] "t/c" ⟨"t", "c", 0, 0, 130, 0, 0⟩ 2 * 60
        = 900 := by
  refine ⟨?_, ?_, ?_, ?_, ?_, by norm_num [rateFor, alookup], by norm_num [rateFor, alookup]⟩
  · intro kd hkd
    simp only [annotateRates, List.mem_map] at hkd
    obtain ⟨a, _, rfl⟩ := hkd
    exact ⟨rfl, rfl⟩
  · intro h
    simp [rateFor, h]
  · intro h
    simp [rateFor, h]
  · intro h hle
    have : max 0 (d.message_count - pd.message_count) = 0 :=
      max_eq_left (sub_nonpos.mpr hle)
    simp [rateFor, h, this]
  · intro hp kd hkd
    have hpe : p.isEmpty = false := by
      cases p with
      | nil => exact absurd rfl hp
      | cons a l => rfl
    simp only [annotateRates, hpe, Bool.false_eq_true, if_false, List.mem_map]
    exact ⟨kd, hkd, rfl⟩

/-- Witness for C3 at concrete inputs. -/
theorem C3_rate_annotation_witness :
    0 < (2 : Rat)
    ∧ rateFor [] "t/c" ⟨"t", "c", 0, 0, 7, 0, 0⟩ 2 = 0 :=
  ⟨by norm_num,
    (C3_rate_annotation_correct [] [] "t/c" ⟨"t", "c", 0, 0, 7, 0, 0⟩
      ⟨"t", "c", 0, 0, 7, 0, 0⟩ 2 (by norm_num)).2.1 rfl⟩

/-- When the window maximum is positive, the sparkline is the pointwise
linear scaling of the history against that maximum. -/
theorem get_sparkline_of_pos_max (history : List Nat) (h : 0 < maxOf history) :
    get_sparkline history =
      history.map fun value => SPARKLINE_CHARS.getD (scaleValue (maxOf history) value) ' ' := by
  cases history with
  | nil => simp [maxOf] at h
  | cons a t => simp [get_sparkline, h]

/-- C9: an all-zero window maps every sample to the lowest-intensity
glyph (the space character, `SPARKLINE_CHARS[0]`) with no division by
zero, and a window with a positive maximum is scaled linearly against
that maximum. -/
theorem C9_sparkline_no_division_by_zero (history : List Nat) (hmax : 0 < maxOf history) :
    get_sparkline [0, 0, 0] = [' ', ' ', ' ']
    ∧ SPARKLINE_CHARS.getD 0 ' ' = ' '
    ∧ get_sparkline history =
        history.map fun value => SPARKLINE_CHARS.getD (scaleValue (maxOf history) value) ' ' :=
  ⟨by decide, rfl, get_sparkline_of_pos_max history hmax⟩

/-- Witness for C9 at the concrete window `[2, 1]`. -/
theorem C9_sparkline_witness :
    0 < maxOf [2, 1]
    ∧ (get_sparkline [0, 0, 0] = [' ', ' ', ' ']
       ∧ SPARKLINE_CHARS.getD 0 ' ' = ' '
       ∧ get_sparkline [2, 1] =
           [2, 1].map fun value => SPARKLINE_CHARS.getD (scaleValue (maxOf [2, 1]) value) ' ') :=
  ⟨by decide, C9_sparkline_no_division_by_zero [2, 1] (by decide)⟩

/-- C10: the sparkline has exactly one glyph per history element, the
empty history yields the empty glyph string, and a positive window
maximum maps to the highest-intensity glyph `'█'`. -/
theorem C10_sparkline_shape (history h2 : List Nat) (v : Nat)
    (hv : v ∈ h2) (hvm : v = maxOf h2) (hpos : 0 < v) :
    (get_sparkline history).length = history.length
    ∧ get_sparkline [] = []
    ∧ '█' ∈ get_sparkline h2 := by
  refine ⟨?_, rfl, ?_⟩
  · cases history with
    | nil => rfl
    | cons a t =>
      by_cases h : 0 < maxOf (a :: t) <;> simp [get_sparkline, h]
  · have hm : 0 < maxOf h2 := hvm ▸ hpos
    rw [get_sparkline_of_pos_max h2 hm]
    refine List.mem_map.mpr ⟨v, hv, ?_⟩
    have hscale : scaleValue (maxOf h2) v = 7 := by
      rw [← hvm]
      show v * (SPARKLINE_CHARS.length - 1) / v = 7
      have : SPARKLINE_CHARS.length - 1 = 7 := by decide
      rw [this, Nat.mul_comm, Nat.mul_div_cancel 7 hpos]
    rw [hscale]
    rfl

/-- Witness for C10 at the concrete window `[3]`. -/
theorem C10_sparkline_witness :
    (3 ∈ [3] ∧ 3 = maxOf [3] ∧ 0 < 3)
    ∧ ((get_sparkline [4, 5]).length = [4, 5].length
       ∧ get_sparkline [] = []
       ∧ '█' ∈ get_sparkline [3]) :=
  ⟨⟨by decide, by decide, by decide⟩,
    C10_sparkline_shape [4, 5] [3] 3 (by decide) (by decide) (by decide)⟩

/-- C7: starting from a history within the bound, one update appends the
new total and the window never exceeds `SPARKLINE_LENGTH`; when the
appended list exceeds the bound exactly the oldest entry is dropped
(the result is the tail), otherwise the appended list is kept; in both
cases the result is the most-recent suffix of the appended list. -/
theorem C7_history_window_bounded (history : List Int) (x : Int)
    (hb : history.length ≤ SPARKLINE_LENGTH) :
    (updateHistory history x).length ≤ SPARKLINE_LENGTH
    ∧ (SPARKLINE_LENGTH < (history ++ [x]).length →
        updateHistory history x = (history ++ [x]).tail)
    ∧ ((history ++ [x]).length ≤ SPARKLINE_LENGTH →
        updateHistory history x = history ++ [x])
    ∧ updateHistory history x =
        (history ++ [x]).drop ((history ++ [x]).length - SPARKLINE_LENGTH) := by
  simp only [SPARKLINE_LENGTH, updateHistory, List.length_append, List.length_cons,
    List.length_nil, Nat.zero_add] at hb ⊢
  by_cases h : 60 < history.length + 1
  · have h60 : history.length = 60 := by omega
    simp only [if_pos h]
    refine ⟨?_, fun _ => trivial, fun hc => absurd hc (by omega), ?_⟩
    · simp [h60]
    · rw [h60, show (60 + 1 - 60 : Nat) = 1 from rfl, List.drop_one]
  · have h0 : history.length + 1 - 60 = 0 := by omega
    simp only [if_neg h]
    refine ⟨by simp; omega, fun hc => absurd hc h, fun _ => trivial, ?_⟩
    rw [h0, List.drop_zero]

/-- Witness for C7 at a concrete history. -/
theorem C7_history_window_witness :
    ([(1 : Int), 2, 3].length ≤ SPARKLINE_LENGTH)
    ∧ ((updateHistory [(1 : Int), 2, 3] 4).length ≤ SPARKLINE_LENGTH
       ∧ (SPARKLINE_LENGTH < ([(1 : Int), 2, 3] ++ [4]).length →
           updateHistory [(1 : Int), 2, 3] 4 = ([(1 : Int), 2, 3] ++ [4]).tail)
       ∧ (([(1 : Int), 2, 3] ++ [4]).length ≤ SPARKLINE_LENGTH →
           updateHistory [(1 : Int), 2, 3] 4 = [(1 : Int), 2, 3] ++ [4])
       ∧ updateHistory [(1 : Int), 2, 3] 4 =
           ([(1 : Int), 2, 3] ++ [4]).drop (([(1 : Int), 2, 3] ++ [4]).length - SPARKLINE_LENGTH)) :=
  ⟨by decide, C7_history_window_bounded [1, 2, 3] 4 (by decide)⟩

/-- Folding the producer accumulator from any starting list prepends it. -/
theorem allProducers_foldl_shift (rs : List (Except String (List Producer)))
    (acc : List Producer) :
    rs.foldl (fun a r => match r with | .ok ps => a ++ ps | .error _ => a) acc
      = acc ++ rs.foldl (fun a r => match r with | .ok ps => a ++ ps | .error _ => a) [] := by
  induction rs generalizing acc with
  | nil => simp
  | cons r rs ih =>
    cases r with
    | ok ps =>
      simp only [List.foldl_cons, List.nil_append]
      rw [ih (acc ++ ps), ih ps, List.append_assoc]
    | error e =>
      simp only [List.foldl_cons]
      exact ih acc

/-- Folding the error accumulator from any starting list prepends it. -/
theorem errorsOf_foldl_shift (rs : List (Except String (List Producer)))
    (acc : List String) :
    rs.foldl (fun a r => match r with | .ok _ => a | .error e => a ++ [e]) acc
      = acc ++ rs.foldl (fun a r => match r with | .ok _ => a | .error e => a ++ [e]) [] := by
  induction rs generalizing acc with
  | nil => simp
  | cons r rs ih =>
    cases r with
    | ok ps =>
      simp only [List.foldl_cons]
      exact ih acc
    | error e =>
      simp only [List.foldl_cons, List.nil_append]
      rw [ih (acc ++ [e]), ih [e], List.append_assoc]

/-- `all_producers` over a cons: the head's producers (if any) come first. -/
theorem allProducers_cons (r : Except String (List Producer))
    (rs : List (Except String (List Producer))) :
    allProducers (r :: rs) =
      (match r with | .ok ps => ps | .error _ => []) ++ allProducers rs := by
  cases r with
  | ok ps =>
    simp only [allProducers, List.foldl_cons]
    exact allProducers_foldl_shift rs ps
  | error e =>
    simp only [allProducers, List.foldl_cons]
    rfl

/-- `errors` over a cons: the head's message (if any) comes first. -/
theorem errorsOf_cons (r : Except String (List Producer))
    (rs : List (Except String (List Producer))) :
    errorsOf (r :: rs) =
      (match r with | .ok _ => [] | .error e => [e]) ++ errorsOf rs := by
  cases r with
  | ok ps =>
    simp only [errorsOf, List.foldl_cons]
    rfl
  | error e =>
    simp only [errorsOf, List.foldl_cons]
    exact errorsOf_foldl_shift rs [e]

/-- If every address failed, no producers were accumulated. -/
theorem allProducers_eq_nil_of_all_error (rs : List (Except String (List Producer)))
    (h : ∀ r ∈ rs, ∃ e, r = Except.error e) : allProducers rs = [] := by
  induction rs with
  | nil => rfl
  | cons r rs ih =>
    obtain ⟨e, rfl⟩ := h r (List.mem_cons_self r rs)
    rw [allProducers_cons]
    exact ih fun r hr => h r (List.mem_cons_of_mem _ hr)

/-- If every address of a non-empty list failed, some error was recorded. -/
theorem errorsOf_ne_nil_of_all_error (rs : List (Except String (List Producer)))
    (hne : rs ≠ []) (h : ∀ r ∈ rs, ∃ e, r = Except.error e) : errorsOf rs ≠ [] := by
  cases rs with
  | nil => exact absurd rfl hne
  | cons r rs =>
    obtain ⟨e, rfl⟩ := h r (List.mem_cons_self r rs)
    rw [errorsOf_cons]
    simp

/-- C5 counterexample: with one address succeeding with an empty producer
list and one address failing, resolution surfaces an error even though
not every address failed — refuting "fails iff every address failed". -/
theorem C5_counterexample_empty_success :
    get_nsqd_nodes [Except.ok [], Except.error "boom"] = Except.error "boom"
    ∧ ¬ (∀ r ∈ ([Except.ok [], Except.error "boom"] :
          List (Except String (List Producer))), ∃ e, r = Except.error e) := by
  constructor
  · rfl
  · intro h
    obtain ⟨e, he⟩ := h (Except.ok []) (List.mem_cons_self _ _)
    cases he

/-- C5 (amended): resolution errors exactly when no producers were
obtained from any address and at least one address failed; whenever any
producer was obtained, or no address failed, it returns the deduplicated
producers; and when every address of a non-empty list failed it returns
the concatenated diagnostic. -/
theorem C5_resolution_error_characterized
    (results : List (Except String (List Producer))) :
    ((∃ e, get_nsqd_nodes results = Except.error e) ↔
        (allProducers results = [] ∧ errorsOf results ≠ []))
    ∧ (allProducers results ≠ [] →
        get_nsqd_nodes results = Except.ok (dedupeProducers (allProducers results) []))
    ∧ (errorsOf results = [] →
        get_nsqd_nodes results = Except.ok (dedupeProducers (allProducers results) []))
    ∧ (results ≠ [] → (∀ r ∈ results, ∃ e, r = Except.error e) →
        get_nsqd_nodes results = Except.error (String.intercalate "; " (errorsOf results))) := by
  by_cases hc : allProducers results = [] ∧ errorsOf results ≠ []
  · have hif : get_nsqd_nodes results = Except.error (String.intercalate "; " (errorsOf results)) := by
      simp [get_nsqd_nodes, List.isEmpty_iff, hc.1, hc.2]
    refine ⟨⟨fun _ => hc, fun _ => ⟨_, hif⟩⟩, ?_, ?_, fun _ _ => hif⟩
    · intro hne; exact absurd hc.1 hne
    · intro he; exact absurd he hc.2
  · have hif : get_nsqd_nodes results = Except.ok (dedupeProducers (allProducers results) []) := by
      simp only [get_nsqd_nodes]
      rw [if_neg]
      simp only [List.isEmpty_iff]
      exact hc
    refine ⟨⟨?_, ?_⟩, fun _ => hif, fun _ => hif, ?_⟩
    · intro ⟨e, he⟩
      rw [hif] at he
      cases he
    · intro h; exact absurd h hc
    · intro hne hall
      exact absurd ⟨allProducers_eq_nil_of_all_error results hall,
        errorsOf_ne_nil_of_all_error results hne hall⟩ hc

/-- C4 counterexample: run the loop from the initial state through a
successful cycle (one broker, counter 5), then a resolution failure, then
a second successful cycle (counter 20).  The claim predicts the mapping
passed to the rate computation after the failed cycle is absent and hence
all rates of the next successful cycle are zero; in fact the mapping from
before the failure is retained and the third cycle reports rate 15. -/
theorem C4_counterexample_rates_not_zero_after_failure :
    ((runLoop 2 ⟨none, []⟩ [Except.ok [brokerDoc 0 0 0 5],
        Except.error "down"]).1).previous_channel_stats
      = some [("t/c", ⟨"t", "c", 0, 0, 10, 0, 0⟩)]
    ∧ (runLoop 2 ⟨none, []⟩ [Except.ok [brokerDoc 0 0 0 5], Except.error "down",
        Except.ok [brokerDoc 0 0 0 20]]).2.map
          (fun out => out.channels.map ChannelData.rate_per_second) = [[0], [], [15]]
    ∧ ¬ ((15 : Rat) = 0) := by
  refine ⟨?_, ?_, by norm_num⟩ <;>
    (simp +decide [runLoop, loopStep, process_stats, aggregate, channelTriples, aggStep,
      addChannel, alookup, aupdate, initRecord, accumChannel, annotateRates, rateFor,
      sortByDepthDesc, insertDesc, updateHistory, statsByKey, brokerDoc, channelKey];
     all_goals norm_num)

/-- C4 (amended): a resolution-failure cycle leaves
`previous_channel_stats` untouched — it retains the mapping from the last
successful cycle (and is absent only while no cycle has yet succeeded) —
so the next successful cycle diffs against that retained mapping. -/
theorem C4_previous_mapping_retained (interval : Rat) (st : LoopState) (e : String) :
    ((loopStep interval st (Except.error e)).1).previous_channel_stats
        = st.previous_channel_stats
    ∧ ∀ nsqd_stats,
        (loopStep interval st (Except.ok nsqd_stats)).2.channels
          = (process_stats nsqd_stats st.previous_channel_stats interval).1 :=
  ⟨rfl, fun _ => rfl⟩

/-- Looking up after an in-place update of the same key maps the stored
value. -/
theorem alookup_aupdate_self (k : String) (f : ChannelData → ChannelData)
    (m : List (String × ChannelData)) :
    alookup k (aupdate k f m) = (alookup k m).map f := by
  induction m with
  | nil => rfl
  | cons kd rest ih =>
    obtain ⟨k', d⟩ := kd
    by_cases h : k' = k
    · simp [alookup, aupdate, h]
    · simp [alookup, aupdate, h, ih]

/-- Updating one key leaves lookups of other keys unchanged. -/
theorem alookup_aupdate_ne (k k' : String) (h : k' ≠ k)
    (f : ChannelData → ChannelData) (m : List (String × ChannelData)) :
    alookup k (aupdate k' f m) = alookup k m := by
  induction m with
  | nil => rfl
  | cons kd rest ih =>
    obtain ⟨k₀, d⟩ := kd
    simp only [aupdate]
    by_cases h0 : k₀ = k'
    · subst h0
      simp [alookup, h]
    · simp only [if_neg h0]
      by_cases hk : k₀ = k
      · simp [alookup, hk]
      · simp [alookup, hk, ih]

/-- Appending cannot change the lookup of a key already present. -/
theorem alookup_append_of_some (k : String) (d : ChannelData)
    (m l : List (String × ChannelData)) (h : alookup k m = some d) :
    alookup k (m ++ l) = some d := by
  induction m with
  | nil => cases h
  | cons kd rest ih =>
    obtain ⟨k₀, d₀⟩ := kd
    by_cases hk : k₀ = k
    · simp [alookup, hk] at h ⊢
      exact h
    · simp [alookup, hk] at h ⊢
      exact ih h

/-- Looking up a key absent from the prefix continues in the suffix. -/
theorem alookup_append_of_none (k : String)
    (m l : List (String × ChannelData)) (h : alookup k m = none) :
    alookup k (m ++ l) = alookup k l := by
  induction m with
  | nil => rfl
  | cons kd rest ih =>
    obtain ⟨k₀, d₀⟩ := kd
    by_cases hk : k₀ = k
    · simp [alookup, hk] at h
    · simp [alookup, hk] at h ⊢
      exact ih h

/-- `addChannel` leaves other keys' lookups unchanged. -/
theorem alookup_addChannel_ne (t : NsqTopic) (c : NsqChannel) (k : String)
    (h : channelKey t c ≠ k) (m : List (String × ChannelData)) :
    alookup k (addChannel t c m) = alookup k m := by
  cases hcc : alookup (channelKey t c) m with
  | some d0 =>
    simp only [addChannel, hcc, Option.isSome_some, if_true]
    exact alookup_aupdate_ne k (channelKey t c) h (accumChannel c) m
  | none =>
    simp only [addChannel, hcc, Option.isSome_none, Bool.false_eq_true, if_false]
    rw [alookup_aupdate_ne k (channelKey t c) h (accumChannel c)]
    cases h0 : alookup k m with
    | some d => exact alookup_append_of_some k d m _ h0
    | none =>
      rw [alookup_append_of_none k m _ h0]
      simp [alookup, h]

/-- `addChannel` on a key already present accumulates into its record. -/
theorem alookup_addChannel_self_of_some (t : NsqTopic) (c : NsqChannel)
    (m : List (String × ChannelData)) (d : ChannelData)
    (h : alookup (channelKey t c) m = some d) :
    alookup (channelKey t c) (addChannel t c m) = some (accumChannel c d) := by
  unfold addChannel
  have hs : (alookup (channelKey t c) m).isSome = true := by simp [h]
  simp only [hs, if_true]
  rw [alookup_aupdate_self, h]
  rfl

/-- `addChannel` on an unseen key stores the accumulated initial record. -/
theorem alookup_addChannel_self_of_none (t : NsqTopic) (c : NsqChannel)
    (m : List (String × ChannelData))
    (h : alookup (channelKey t c) m = none) :
    alookup (channelKey t c) (addChannel t c m)
      = some (accumChannel c (initRecord t c)) := by
  simp only [addChannel, h, Option.isSome_none, Bool.false_eq_true, if_false]
  rw [alookup_aupdate_self, alookup_append_of_none _ _ _ h]
  simp [alookup]

/-- The depth contribution of one more occurrence at the end. -/
theorem depthContrib_append (ts : List (NsqTopic × NsqChannel))
    (t : NsqTopic × NsqChannel) (k : String) :
    depthContrib (ts ++ [t]) k =
      depthContrib ts k +
        (if channelKey t.1 t.2 = k then t.2.depth + t.2.backend_depth else 0) := by
  by_cases h : channelKey t.1 t.2 = k <;>
    simp [depthContrib, List.filter_append, h]

/-- The first component of the aggregation fold ignores the running
in-flight total. -/
theorem foldl_aggStep_fst (ts : List (NsqTopic × NsqChannel)) :
    ∀ (m : List (String × ChannelData)) (n : Int),
      (ts.foldl aggStep (m, n)).1 = ts.foldl (fun m tc => addChannel tc.1 tc.2 m) m := by
  induction ts with
  | nil => intro m n; rfl
  | cons tc ts ih => intro m n; exact ih _ _

/-- `channel_data` of the full pipeline is the map-building fold. -/
theorem buildChannelData_eq_buildMap (nsqd_stats : List NsqdStats) :
    buildChannelData nsqd_stats = buildMap (channelTriples nsqd_stats) :=
  foldl_aggStep_fst (channelTriples nsqd_stats) [] 0

/-- Invariant of the aggregation loop: every stored record's depth is the
sum of `depth + backend_depth` over the occurrences of its key, and all
accumulated fields are non-negative (given non-negative inputs); keys
never seen have zero contribution. -/
theorem buildMap_invariant (ts : List (NsqTopic × NsqChannel))
    (hnn : ∀ tc ∈ ts, 0 ≤ tc.2.depth ∧ 0 ≤ tc.2.backend_depth ∧
      0 ≤ tc.2.in_flight_count ∧ 0 ≤ tc.2.message_count) (k : String) :
    (alookup k (buildMap ts) = none → depthContrib ts k = 0)
    ∧ ∀ d, alookup k (buildMap ts) = some d →
        d.depth = depthContrib ts k
        ∧ 0 ≤ d.depth ∧ 0 ≤ d.in_flight_count ∧ 0 ≤ d.message_count := by
  induction ts using List.reverseRecOn with
  | nil =>
    refine ⟨fun _ => rfl, fun d h => ?_⟩
    cases h
  | append_singleton ts t ih =>
    have hnn' : ∀ tc ∈ ts, 0 ≤ tc.2.depth ∧ 0 ≤ tc.2.backend_depth ∧
        0 ≤ tc.2.in_flight_count ∧ 0 ≤ tc.2.message_count :=
      fun tc htc => hnn tc (List.mem_append_left _ htc)
    have ht := hnn t (List.mem_append_right _ (List.mem_singleton_self t))
    have hbuild : buildMap (ts ++ [t]) = addChannel t.1 t.2 (buildMap ts) := by
      simp [buildMap, List.foldl_append]
    obtain ⟨ihnone, ihsome⟩ := ih hnn'
    by_cases hk : channelKey t.1 t.2 = k
    · subst hk
      cases h0 : alookup (channelKey t.1 t.2) (buildMap ts) with
      | none =>
        have hafter := alookup_addChannel_self_of_none t.1 t.2 (buildMap ts) h0
        rw [hbuild]
        refine ⟨fun hcontra => ?_, fun d hd => ?_⟩
        · rw [hafter] at hcontra
          cases hcontra
        · rw [hafter] at hd
          injection hd with hd
          subst hd
          rw [depthContrib_append, ihnone h0, if_pos rfl]
          refine ⟨by simp [accumChannel, initRecord], ?_, ?_, ?_⟩
          · simp only [accumChannel, initRecord]
            have := ht.1
            have := ht.2.1
            omega
          · simp only [accumChannel, initRecord]
            have := ht.2.2.1
            omega
          · simp only [accumChannel, initRecord]
            have := ht.2.2.2
            omega
      | some d0 =>
        have hafter := alookup_addChannel_self_of_some t.1 t.2 (buildMap ts) d0 h0
        rw [hbuild]
        refine ⟨fun hcontra => ?_, fun d hd => ?_⟩
        · rw [hafter] at hcontra
          cases hcontra
        · rw [hafter] at hd
          injection hd with hd
          subst hd
          obtain ⟨hdepth, hd1, hd2, hd3⟩ := ihsome d0 h0
          rw [depthContrib_append, if_pos rfl]
          refine ⟨?_, ?_, ?_, ?_⟩
          · simp only [accumChannel]
            omega
          · simp only [accumChannel]
            have := ht.1
            have := ht.2.1
            omega
          · simp only [accumChannel]
            have := ht.2.2.1
            omega
          · simp only [accumChannel]
            have := ht.2.2.2
            omega
    · rw [hbuild, alookup_addChannel_ne t.1 t.2 k hk, depthContrib_append, if_neg hk]
      refine ⟨fun hnone => by rw [ihnone hnone, Int.add_zero], fun d hd => ?_⟩
      obtain ⟨hdepth, hrest⟩ := ihsome d hd
      exact ⟨by omega, hrest⟩

/-- C6: with non-negative broker fields, each aggregated record's depth
is exactly the sum of `depth + backend_depth` over the occurrences of its
channel key, and depth, in-flight count and message count are all
non-negative. -/
theorem C6_depth_sum_and_nonneg (nsqd_stats : List NsqdStats)
    (hnn : ∀ tc ∈ channelTriples nsqd_stats, 0 ≤ tc.2.depth ∧ 0 ≤ tc.2.backend_depth ∧
      0 ≤ tc.2.in_flight_count ∧ 0 ≤ tc.2.message_count)
    (k : String) (d : ChannelData)
    (hk : alookup k (buildChannelData nsqd_stats) = some d) :
    d.depth = depthContrib (channelTriples nsqd_stats) k
    ∧ 0 ≤ d.depth ∧ 0 ≤ d.in_flight_count ∧ 0 ≤ d.message_count := by
  rw [buildChannelData_eq_buildMap] at hk
  exact (buildMap_invariant (channelTriples nsqd_stats) hnn k).2 d hk

/-- Witness for C6 on a concrete broker document. -/
theorem C6_witness :
    (∀ tc ∈ channelTriples [brokerDoc 3 4 2 5], 0 ≤ tc.2.depth ∧ 0 ≤ tc.2.backend_depth ∧
      0 ≤ tc.2.in_flight_count ∧ 0 ≤ tc.2.message_count)
    ∧ alookup "t/c" (buildChannelData [brokerDoc 3 4 2 5])
        = some ⟨"t", "c", 7, 2, 10, 0, 0⟩
    ∧ ((⟨"t", "c", 7, 2, 10, 0, 0⟩ : ChannelData).depth
          = depthContrib (channelTriples [brokerDoc 3 4 2 5]) "t/c"
       ∧ 0 ≤ (⟨"t", "c", 7, 2, 10, 0, 0⟩ : ChannelData).depth
       ∧ 0 ≤ (⟨"t", "c", 7, 2, 10, 0, 0⟩ : ChannelData).in_flight_count
       ∧ 0 ≤ (⟨"t", "c", 7, 2, 10, 0, 0⟩ : ChannelData).message_count) :=
  ⟨by decide, by decide,
    C6_depth_sum_and_nonneg [brokerDoc 3 4 2 5] (by decide) "t/c" _ (by decide)⟩

/-- Stable insertion produces a permutation of consing. -/
theorem insertDesc_perm (x : ChannelData) (l : List ChannelData) :
    List.Perm (insertDesc x l) (x :: l) := by
  induction l with
  | nil => exact List.Perm.refl _
  | cons y ys ih =>
    by_cases h : x.depth < y.depth
    · simp only [insertDesc, if_pos h]
      exact (ih.cons y).trans (List.Perm.swap x y ys)
    · simp only [insertDesc, if_neg h]
      exact List.Perm.refl _

/-- The stable sort permutes its input. -/
theorem sortByDepthDesc_perm (l : List ChannelData) :
    List.Perm (sortByDepthDesc l) l := by
  induction l with
  | nil => exact List.Perm.refl _
  | cons x xs ih =>
    exact (insertDesc_perm x (sortByDepthDesc xs)).trans (ih.cons x)

/-- Stable insertion preserves the depth-descending pairwise order. -/
theorem insertDesc_sorted (x : ChannelData) (l : List ChannelData)
    (h : l.Pairwise fun a b => b.depth ≤ a.depth) :
    (insertDesc x l).Pairwise fun a b => b.depth ≤ a.depth := by
  induction l with
  | nil => simp [insertDesc]
  | cons y ys ih =>
    obtain ⟨hy, hys⟩ := List.pairwise_cons.mp h
    by_cases hlt : x.depth < y.depth
    · simp only [insertDesc, if_pos hlt]
      refine List.pairwise_cons.mpr ⟨?_, ih hys⟩
      intro b hb
      rcases List.mem_cons.mp ((insertDesc_perm x ys).mem_iff.mp hb) with rfl | hbys
      · exact le_of_lt hlt
      · exact hy b hbys
    · simp only [insertDesc, if_neg hlt]
      refine List.pairwise_cons.mpr ⟨?_, h⟩
      intro b hb
      rcases List.mem_cons.mp hb with rfl | hbys
      · exact not_lt.mp hlt
      · exact le_trans (hy b hbys) (not_lt.mp hlt)

/-- The stable sort is depth-descending. -/
theorem sortByDepthDesc_sorted (l : List ChannelData) :
    (sortByDepthDesc l).Pairwise fun a b => b.depth ≤ a.depth := by
  induction l with
  | nil => simp [sortByDepthDesc]
  | cons x xs ih => exact insertDesc_sorted x (sortByDepthDesc xs) ih

/-- Stability of insertion: restricted to any fixed depth, insertion is
exactly consing — the skipped prefix is strictly deeper. -/
theorem filter_insertDesc (x : ChannelData) (l : List ChannelData) (d : Int) :
    (insertDesc x l).filter (fun c => decide (c.depth = d))
      = (x :: l).filter fun c => decide (c.depth = d) := by
  induction l with
  | nil => rfl
  | cons y ys ih =>
    by_cases hlt : x.depth < y.depth
    · simp only [insertDesc, if_pos hlt]
      by_cases hyd : y.depth = d
      · have hxd : ¬ x.depth = d := by omega
        simp [List.filter_cons, hyd, hxd, ih]
      · simp [List.filter_cons, hyd, ih]
    · simp only [insertDesc, if_neg hlt]

/-- Stability of the sort: the subsequence of records at any fixed depth
is preserved from the input. -/
theorem filter_sortByDepthDesc (l : List ChannelData) (d : Int) :
    (sortByDepthDesc l).filter (fun c => decide (c.depth = d))
      = l.filter fun c => decide (c.depth = d) := by
  induction l with
  | nil => rfl
  | cons x xs ih =>
    rw [sortByDepthDesc, filter_insertDesc]
    simp only [List.filter_cons, ih]

/-- C8: the ranking is sorted by depth descending, is a permutation of
its input, preserves the relative order of equal-depth channels
(stability), is a function of its input alone (determinism), and the
channel list `process_stats` returns is depth-descending. -/
theorem C8_ranking_deterministic (l l' : List ChannelData) :
    (sortByDepthDesc l).Pairwise (fun a b => b.depth ≤ a.depth)
    ∧ List.Perm (sortByDepthDesc l) l
    ∧ (∀ d : Int, (sortByDepthDesc l).filter (fun c => decide (c.depth = d))
        = l.filter fun c => decide (c.depth = d))
    ∧ (l = l' → sortByDepthDesc l = sortByDepthDesc l')
    ∧ ∀ (nsqd_stats : List NsqdStats)
        (previous_stats : Option (List (String × ChannelData))) (interval : Rat),
        (process_stats nsqd_stats previous_stats interval).1.Pairwise
          fun a b => b.depth ≤ a.depth := by
  refine ⟨sortByDepthDesc_sorted l, sortByDepthDesc_perm l, filter_sortByDepthDesc l,
    fun h => by rw [h], ?_⟩
  intro nsqd_stats previous_stats interval
  exact sortByDepthDesc_sorted _
